import Mathlib

/-!
Shallow embedding of the Open-Harness repository sources and verification of
the specification's claims about them.

Embedded code:
* `src/scripts/redistribute-commits.py` — the `redistribute` function that
  spreads a list of commits evenly across a list of dates;
* `src/add_numbers.py`, `src/packages/sdk/add.py`,
  `src/packages/sdk/add_numbers.py` — the three `add` variants.

Modelling conventions: Python `datetime` is a calendar-day ordinal plus
time-of-day fields; Python `dict` is an insertion-ordered association list
where assignment updates in place; Python `int` is `Int`, and `float`
arithmetic is modelled exactly over `ℚ`; a raised exception is the `error`
branch of `Except`.
-/

/-- A calendar timestamp, modelling Python `datetime`: the calendar day as a
day ordinal (as in `datetime.toordinal`) plus time-of-day fields.
`timedelta(days=1)` adds 1 to `day`; `.date()` projects to `day`. -/
structure DateTime where
  day : Nat
  hour : Nat
  minute : Nat
  second : Nat
deriving DecidableEq

/-- A commit record `(sha, date, subject)` as produced by `get_commits`. -/
structure Commit where
  sha : String
  date : DateTime
  subject : String
deriving DecidableEq

/-- The Python exceptions the embedded code can raise. -/
inductive PyError where
  | typeError (msg : String)
  | zeroDivisionError (msg : String)
deriving DecidableEq

/-- Python `dict` assignment `m[k] = v` on an insertion-ordered association
list: if the key is present its value is updated in place, otherwise the
pair is appended. -/
def dictInsert (m : List (String × DateTime)) (k : String) (v : DateTime) :
    List (String × DateTime) :=
  if m.any (fun p => p.1 == k) then
    m.map (fun p => if p.1 == k then (p.1, v) else p)
  else m ++ [(k, v)]

/-- Python `dict` lookup `m[k]`. -/
def dictLookup (m : List (String × DateTime)) (k : String) : Option DateTime :=
  (m.find? (fun p => p.1 == k)).map (fun p => p.2)

/-- `date.replace(hour=9 + int((i / max(commits_today, 1)) * 14),
minute=(i * 7) % 60, second=0)` from the inner loop of `redistribute`.
The float expression `int((i / n) * 14)` is modelled exactly:
for nonnegative integers it equals `i * 14 / n` in integer division. -/
def newDate (date : DateTime) (i n : Nat) : DateTime :=
  { date with hour := 9 + i * 14 / max n 1, minute := i * 7 % 60, second := 0 }

/-- The inner `for i in range(commits_today)` loop of `redistribute`:
`rem` iterations remain, so the Python loop counter is `i = n - rem` where
`n = commits_today`; the loop breaks when `commit_idx` reaches the number of
commits. Returns the updated mapping and the updated `commit_idx`. -/
def innerLoop (commits : List Commit) (date : DateTime) (n : Nat) :
    Nat → Nat → List (String × DateTime) → List (String × DateTime) × Nat
  | 0, commit_idx, m => (m, commit_idx)
  | rem + 1, commit_idx, m =>
    if h : commit_idx < commits.length then
      innerLoop commits date n rem (commit_idx + 1)
        (dictInsert m (commits.get ⟨commit_idx, h⟩).sha
          (newDate date (n - (rem + 1)) n))
    else (m, commit_idx)

/-- `commits_today` for the day at position `day_idx`:
`base_per_day + (1 if day_idx < extra else 0)`. -/
def alloc (base_per_day extra day_idx : Nat) : Nat :=
  base_per_day + (if day_idx < extra then 1 else 0)

/-- The outer `for day_idx, date in enumerate(dates)` loop of `redistribute`:
each day receives `base_per_day` commits plus one extra while `day_idx < extra`. -/
def outerLoop (commits : List Commit) (base_per_day extra : Nat) :
    List DateTime → Nat → Nat → List (String × DateTime) → List (String × DateTime)
  | [], _, _, m => m
  | date :: rest, day_idx, commit_idx, m =>
    let commits_today := alloc base_per_day extra day_idx
    let p := innerLoop commits date commits_today commits_today commit_idx m
    outerLoop commits base_per_day extra rest (day_idx + 1) p.2 p.1

/-- `redistribute` from `src/scripts/redistribute-commits.py`. Python raises
`ZeroDivisionError` at `total_commits // total_days` when `dates` is empty;
that is the `error` branch. -/
def redistribute (commits : List Commit) (dates : List DateTime) :
    Except PyError (List (String × DateTime)) :=
  let total_commits := commits.length
  let total_days := dates.length
  if total_days = 0 then
    .error (.zeroDivisionError "integer division or modulo by zero")
  else
    let base_per_day := total_commits / total_days
    let extra := total_commits % total_days
    .ok (outerLoop commits base_per_day extra dates 0 0 [])

/-- Total number of commits allotted to `count` consecutive days starting at
day position `start`. -/
def sumAlloc (base_per_day extra : Nat) : Nat → Nat → Nat
  | _, 0 => 0
  | start, count + 1 =>
    alloc base_per_day extra start + sumAlloc base_per_day extra (start + 1) count

/-- The association pairs one run of the inner loop appends when every key it
inserts is fresh: commits `commit_idx`, `commit_idx + 1`, … paired with their
spread-out timestamps, for `rem` iterations or until the commits run out. -/
def innerSeg (commits : List Commit) (date : DateTime) (n : Nat) :
    Nat → Nat → List (String × DateTime)
  | 0, _ => []
  | rem + 1, commit_idx =>
    if h : commit_idx < commits.length then
      ((commits.get ⟨commit_idx, h⟩).sha, newDate date (n - (rem + 1)) n) ::
        innerSeg commits date n rem (commit_idx + 1)
    else []

/-- The pairs the whole outer loop appends when all inserted keys are fresh:
the concatenation of one `innerSeg` per day. -/
def outerSeg (commits : List Commit) (base_per_day extra : Nat) :
    List DateTime → Nat → Nat → List (String × DateTime)
  | [], _, _ => []
  | date :: rest, day_idx, commit_idx =>
    let n := alloc base_per_day extra day_idx
    innerSeg commits date n n commit_idx ++
      outerSeg commits base_per_day extra rest (day_idx + 1)
        (min (commit_idx + n) commits.length)

/-- Number of mapping entries whose timestamp falls on calendar day `d`. -/
def countDay (m : List (String × DateTime)) (d : Nat) : Nat :=
  m.countP (fun p => p.2.day == d)

/-- A Python value, as passed to the addition functions. Python `float` is
modelled exactly over `ℚ`. `boolV` is separate because `bool` is a subclass
of `int` with values `True = 1`, `False = 0`. -/
inductive PyVal where
  | intV (n : Int)
  | boolV (b : Bool)
  | floatV (q : ℚ)
  | strV (s : String)
  | noneV
deriving DecidableEq

/-- `isinstance(x, (int, float))`; Python `bool` is a subclass of `int`,
so booleans pass the check. -/
def isInstIntFloat : PyVal → Bool
  | .intV _ => true
  | .boolV _ => true
  | .floatV _ => true
  | .strV _ => false
  | .noneV => false

/-- The integer value of a Python boolean: `True = 1`, `False = 0`. -/
def boolInt (b : Bool) : Int :=
  if b then 1 else 0

/-- Python `+` on the numeric tower: `int + int` yields `int` (with `bool`
coerced to its integer value), any `float` operand yields `float`. The final
catch-all is never reached under the `isinstance` guard of the `add`
functions. -/
def pyAdd : PyVal → PyVal → PyVal
  | .intV a, .intV b => .intV (a + b)
  | .intV a, .boolV b => .intV (a + boolInt b)
  | .intV a, .floatV b => .floatV ((a : ℚ) + b)
  | .boolV a, .intV b => .intV (boolInt a + b)
  | .boolV a, .boolV b => .intV (boolInt a + boolInt b)
  | .boolV a, .floatV b => .floatV ((boolInt a : ℚ) + b)
  | .floatV a, .intV b => .floatV (a + (b : ℚ))
  | .floatV a, .boolV b => .floatV (a + (boolInt b : ℚ))
  | .floatV a, .floatV b => .floatV (a + b)
  | _, _ => .noneV

/-- The numeric value of a Python number, as an exact rational. -/
def PyVal.toRat : PyVal → ℚ
  | .intV n => (n : ℚ)
  | .boolV b => (boolInt b : ℚ)
  | .floatV q => q
  | _ => 0

namespace AddNumbers

/-- `add` from `src/add_numbers.py`. -/
def add (a b : PyVal) : Except PyError PyVal :=
  if !isInstIntFloat a || !isInstIntFloat b then
    .error (.typeError "Both arguments must be numbers")
  else
    .ok (pyAdd a b)

end AddNumbers

namespace SdkAdd

/-- `add` from `src/packages/sdk/add.py`. -/
def add (a b : PyVal) : Except PyError PyVal :=
  if !isInstIntFloat a || !isInstIntFloat b then
    .error (.typeError "Both arguments must be numbers")
  else
    .ok (pyAdd a b)

end SdkAdd

namespace SdkAddNumbers

/-- `add` from `src/packages/sdk/add_numbers.py`. -/
def add (a b : PyVal) : Except PyError PyVal :=
  if !isInstIntFloat a || !isInstIntFloat b then
    .error (.typeError "Both arguments must be numbers (int or float)")
  else
    .ok (pyAdd a b)

end SdkAddNumbers

/-- C5: for all numeric arguments (including booleans, which pass the
`isinstance` check) `add` returns their arithmetic sum; in particular
`add(2,3) = 5`, `add(2.5,3.7) = 6.2` and `add(-1,1) = 0`. -/
theorem add_returns_arithmetic_sum :
    (∀ a b : PyVal, isInstIntFloat a = true → isInstIntFloat b = true →
      ∃ v, AddNumbers.add a b = .ok v ∧ v.toRat = a.toRat + b.toRat) ∧
    AddNumbers.add (.intV 2) (.intV 3) = .ok (.intV 5) ∧
    AddNumbers.add (.floatV (5/2)) (.floatV (37/10)) = .ok (.floatV (31/5)) ∧
    AddNumbers.add (.intV (-1)) (.intV 1) = .ok (.intV 0) := by
  refine ⟨?_, rfl, by norm_num [AddNumbers.add, pyAdd, isInstIntFloat], rfl⟩
  rintro (n | x | q | s | _) (n' | y | q' | s' | _) ha hb <;>
    simp_all [AddNumbers.add, isInstIntFloat, pyAdd, PyVal.toRat, boolInt]

/-- Witness for C5 at the concrete input `a = 2`, `b = 3`. -/
theorem add_returns_arithmetic_sum_witness :
    ∃ v, AddNumbers.add (.intV 2) (.intV 3) = .ok v ∧
      PyVal.toRat v = PyVal.toRat (.intV 2) + PyVal.toRat (.intV 3) :=
  add_returns_arithmetic_sum.1 (.intV 2) (.intV 3) rfl rfl

/-- C6: when either argument fails the numeric check, `add` raises exactly a
`TypeError`; a `TypeError` is the only error it ever raises, and on numeric
arguments it raises no error. -/
theorem add_typeError_only :
    (∀ a b : PyVal, isInstIntFloat a = false ∨ isInstIntFloat b = false →
      AddNumbers.add a b = .error (.typeError "Both arguments must be numbers")) ∧
    (∀ a b e, AddNumbers.add a b = .error e → ∃ msg, e = .typeError msg) ∧
    (∀ a b : PyVal, isInstIntFloat a = true → isInstIntFloat b = true →
      ∃ v, AddNumbers.add a b = .ok v) := by
  refine ⟨?_, ?_, ?_⟩
  · intro a b h
    rcases h with h | h <;> simp [AddNumbers.add, h]
  · intro a b e h
    unfold AddNumbers.add at h
    split at h
    · exact ⟨_, (Except.error.inj h).symm⟩
    · exact absurd h (by simp)
  · intro a b ha hb
    exact ⟨pyAdd a b, by simp [AddNumbers.add, ha, hb]⟩

/-- Witness for C6: a non-numeric first argument raises `TypeError`, and a
numeric pair returns a value. -/
theorem add_typeError_only_witness :
    AddNumbers.add (.strV "x") (.intV 1) =
      .error (.typeError "Both arguments must be numbers") ∧
    ∃ v, AddNumbers.add (.intV 1) (.intV 2) = .ok v :=
  ⟨add_typeError_only.1 (.strV "x") (.intV 1) (Or.inl rfl),
   add_typeError_only.2.2 (.intV 1) (.intV 2) rfl rfl⟩

/-- C7: the three `add` implementations are functionally equivalent: on every
input pair they all return the same value, or all raise a `TypeError`
(differing only in the message text). -/
theorem add_variants_equivalent :
    ∀ a b : PyVal,
      (∃ v, AddNumbers.add a b = .ok v ∧ SdkAdd.add a b = .ok v ∧
        SdkAddNumbers.add a b = .ok v) ∨
      (∃ m₁ m₂ m₃, AddNumbers.add a b = .error (.typeError m₁) ∧
        SdkAdd.add a b = .error (.typeError m₂) ∧
        SdkAddNumbers.add a b = .error (.typeError m₃)) := by
  intro a b
  unfold AddNumbers.add SdkAdd.add SdkAddNumbers.add
  by_cases h : (!isInstIntFloat a || !isInstIntFloat b) = true
  · exact Or.inr ⟨"Both arguments must be numbers", "Both arguments must be numbers",
      "Both arguments must be numbers (int or float)", by simp [h], by simp [h], by simp [h]⟩
  · exact Or.inl ⟨pyAdd a b, by simp [h], by simp [h], by simp [h]⟩

/-- C8: Python booleans pass the `isinstance(x, (int, float))` check, so
`add` accepts them and returns their arithmetic sum; in particular
`add(True, True)` returns the integer `2`. -/
theorem add_accepts_booleans :
    (∀ x y : Bool, AddNumbers.add (.boolV x) (.boolV y) =
      .ok (.intV (boolInt x + boolInt y))) ∧
    AddNumbers.add (.boolV true) (.boolV true) = .ok (.intV 2) :=
  ⟨fun x y => by cases x <;> cases y <;> rfl, rfl⟩

/-- C10: with a non-empty commit list and an empty dates list `redistribute`
fails with Python's division-by-zero error (raised at
`total_commits // total_days`), and a non-empty dates list is exactly the
precondition under which it succeeds. -/
theorem redistribute_empty_dates_division_by_zero :
    ∀ (commits : List Commit) (dates : List DateTime),
      (commits ≠ [] → dates = [] →
        redistribute commits dates =
          .error (.zeroDivisionError "integer division or modulo by zero")) ∧
      (dates ≠ [] → ∃ m, redistribute commits dates = .ok m) := by
  intro commits dates
  constructor
  · intro _ hd
    subst hd
    simp [redistribute]
  · intro hd
    have h0 : ¬ dates.length = 0 := by simpa [List.length_eq_zero] using hd
    refine ⟨outerLoop commits (commits.length / dates.length)
      (commits.length % dates.length) dates 0 0 [], ?_⟩
    simp [redistribute, h0]

/-- Witness for C10 at concrete inputs: one commit with an empty dates list
fails, and with a one-day range it succeeds. -/
theorem redistribute_empty_dates_division_by_zero_witness :
    redistribute [⟨"a", ⟨0, 0, 0, 0⟩, ""⟩] [] =
      .error (.zeroDivisionError "integer division or modulo by zero") ∧
    ∃ m, redistribute [⟨"a", ⟨0, 0, 0, 0⟩, ""⟩] [⟨0, 0, 0, 0⟩] = .ok m :=
  ⟨(redistribute_empty_dates_division_by_zero _ _).1 (by simp) rfl,
   (redistribute_empty_dates_division_by_zero _ _).2 (by simp)⟩

theorem dictInsert_of_not_mem {m : List (String × DateTime)} {k : String}
    {v : DateTime} (h : k ∉ m.map Prod.fst) :
    dictInsert m k v = m ++ [(k, v)] := by
  have hany : ¬ (m.any (fun p => p.1 == k) = true) := by
    simp only [List.any_eq_true, beq_iff_eq]
    rintro ⟨p, hp, rfl⟩
    exact h (List.mem_map_of_mem Prod.fst hp)
  simp [dictInsert, hany]

theorem keys_dictInsert_of_mem {m : List (String × DateTime)} {k : String}
    {v : DateTime} (h : m.any (fun p => p.1 == k) = true) :
    (dictInsert m k v).map Prod.fst = m.map Prod.fst := by
  simp only [dictInsert, if_pos h, List.map_map]
  refine List.map_congr_left fun p _ => ?_
  by_cases hc : p.1 = k <;> simp [hc]

theorem mem_keys_dictInsert {m : List (String × DateTime)} {k s : String}
    {v : DateTime} :
    s ∈ (dictInsert m k v).map Prod.fst ↔ s ∈ m.map Prod.fst ∨ s = k := by
  by_cases h : m.any (fun p => p.1 == k) = true
  · rw [keys_dictInsert_of_mem h]
    have hk : k ∈ m.map Prod.fst := by
      simp only [List.any_eq_true, beq_iff_eq] at h
      obtain ⟨p, hp, rfl⟩ := h
      exact List.mem_map_of_mem Prod.fst hp
    constructor
    · exact Or.inl
    · rintro (h' | rfl)
      · exact h'
      · exact hk
  · rw [dictInsert_of_not_mem (by
      simp only [List.any_eq_true, beq_iff_eq] at h
      intro hk
      obtain ⟨p, hp, hpk⟩ := List.mem_map.mp hk
      exact h ⟨p, hp, hpk⟩)]
    simp [or_comm]

theorem mem_dictInsert_val {m : List (String × DateTime)} {k : String}
    {v : DateTime} {p : String × DateTime} (h : p ∈ dictInsert m k v) :
    p.2 = v ∨ p ∈ m := by
  unfold dictInsert at h
  split at h
  · obtain ⟨q, hq, he⟩ := List.mem_map.mp h
    by_cases hc : q.1 == k
    · rw [if_pos hc] at he
      exact Or.inl (by rw [← he])
    · rw [if_neg hc] at he
      exact Or.inr (he ▸ hq)
  · rcases List.mem_append.mp h with h' | h'
    · exact Or.inr h'
    · simp only [List.mem_singleton] at h'
      exact Or.inl (by rw [h'])

theorem keys_nodup_dictInsert {m : List (String × DateTime)} {k : String}
    {v : DateTime} (h : (m.map Prod.fst).Nodup) :
    ((dictInsert m k v).map Prod.fst).Nodup := by
  by_cases hc : m.any (fun p => p.1 == k) = true
  · rw [keys_dictInsert_of_mem hc]
    exact h
  · have hk : k ∉ m.map Prod.fst := by
      simp only [List.any_eq_true, beq_iff_eq] at hc
      intro hm
      obtain ⟨p, hp, hpk⟩ := List.mem_map.mp hm
      exact hc ⟨p, hp, hpk⟩
    rw [dictInsert_of_not_mem hk, List.map_append, List.nodup_append]
    refine ⟨h, List.nodup_singleton _, ?_⟩
    intro a ha hb
    simp only [List.map_cons, List.map_nil, List.mem_singleton] at hb
    subst hb
    exact hk ha

theorem hour_offset_le (i n : Nat) (hi : i < max n 1) : i * 14 / max n 1 ≤ 13 := by
  have h := Nat.div_lt_of_lt_mul (show i * 14 < max n 1 * 14 by omega)
  omega

theorem innerLoop_val_pres (c : List Commit) (d : DateTime) (n : Nat)
    (P : DateTime → Prop) (hP : ∀ i, i < max n 1 → P (newDate d i n)) :
    ∀ (rem idx : Nat) (m : List (String × DateTime)), (∀ p ∈ m, P p.2) →
      ∀ p ∈ (innerLoop c d n rem idx m).1, P p.2 := by
  intro rem
  induction rem with
  | zero =>
    intro idx m hm p hp
    exact hm p hp
  | succ k ih =>
    intro idx m hm p hp
    rw [innerLoop] at hp
    split at hp
    · refine ih _ _ ?_ p hp
      intro q hq
      rcases mem_dictInsert_val hq with h' | h'
      · rw [h']
        exact hP _ (by omega)
      · exact hm q h'
    · exact hm p hp

theorem outerLoop_val_pres (c : List Commit) (b e : Nat) (P : DateTime → Prop) :
    ∀ (dates : List DateTime) (dIdx idx : Nat) (m : List (String × DateTime)),
      (∀ date ∈ dates, ∀ i n, i < max n 1 → P (newDate date i n)) →
      (∀ p ∈ m, P p.2) →
      ∀ p ∈ outerLoop c b e dates dIdx idx m, P p.2 := by
  intro dates
  induction dates with
  | nil =>
    intro dIdx idx m _ hm p hp
    exact hm p hp
  | cons date rest ih =>
    intro dIdx idx m hdates hm p hp
    rw [outerLoop] at hp
    refine ih _ _ _ (fun q hq => hdates q (List.mem_cons_of_mem _ hq)) ?_ p hp
    exact innerLoop_val_pres c date _ P
      (fun i hi => hdates date (List.mem_cons_self _ _) i _ hi) _ _ _ hm

/-- C2: every timestamp produced by `redistribute` lies in its day's
09:00–23:00 window: hour between 9 and 22, minute between 0 and 59,
second equal to 0. -/
theorem redistribute_time_window :
    ∀ (commits : List Commit) (dates : List DateTime) (m : List (String × DateTime)),
      redistribute commits dates = .ok m →
      ∀ p ∈ m, 9 ≤ p.2.hour ∧ p.2.hour ≤ 22 ∧ p.2.minute ≤ 59 ∧ p.2.second = 0 := by
  intro commits dates m h p hp
  simp only [redistribute] at h
  split at h
  · exact absurd h (by simp)
  · replace h := Except.ok.inj h
    subst h
    refine outerLoop_val_pres _ _ _
      (fun v => 9 ≤ v.hour ∧ v.hour ≤ 22 ∧ v.minute ≤ 59 ∧ v.second = 0)
      dates 0 0 [] ?_ (by simp) p hp
    intro date _ i n hi
    have hh := hour_offset_le i n hi
    have hmin : i * 7 % 60 < 60 := Nat.mod_lt _ (by norm_num)
    exact ⟨by simp [newDate], by simp [newDate]; omega, by simp [newDate]; omega,
      by simp [newDate]⟩

/-- Witness for C2 at one commit and one day: the produced timestamp
09:00:00 lies in the window. -/
theorem redistribute_time_window_witness :
    9 ≤ (DateTime.mk 0 9 0 0).hour ∧ (DateTime.mk 0 9 0 0).hour ≤ 22 ∧
      (DateTime.mk 0 9 0 0).minute ≤ 59 ∧ (DateTime.mk 0 9 0 0).second = 0 :=
  redistribute_time_window [⟨"a", ⟨0, 0, 0, 0⟩, ""⟩] [⟨0, 0, 0, 0⟩]
    [("a", ⟨0, 9, 0, 0⟩)] rfl ("a", ⟨0, 9, 0, 0⟩) (by simp)

theorem innerLoop_idx (c : List Commit) (d : DateTime) (n : Nat) :
    ∀ (rem idx : Nat) (m : List (String × DateTime)), idx ≤ c.length →
      (innerLoop c d n rem idx m).2 = min (idx + rem) c.length := by
  intro rem
  induction rem with
  | zero =>
    intro idx m h
    simp only [innerLoop]
    omega
  | succ k ih =>
    intro idx m h
    rw [innerLoop]
    split
    · rename_i hlt
      rw [ih (idx + 1) _ (by omega)]
      omega
    · rename_i hge
      simp only
      omega

theorem innerLoop_keys (c : List Commit) (d : DateTime) (n : Nat) :
    ∀ (rem idx : Nat) (m : List (String × DateTime)) (s : String), idx ≤ c.length →
      (s ∈ (innerLoop c d n rem idx m).1.map Prod.fst ↔
        s ∈ m.map Prod.fst ∨ ∃ j, idx ≤ j ∧ j < idx + rem ∧
          ∃ (hj : j < c.length), (c.get ⟨j, hj⟩).sha = s) := by
  intro rem
  induction rem with
  | zero =>
    intro idx m s h
    simp only [innerLoop]
    constructor
    · exact Or.inl
    · rintro (h' | ⟨j, hj1, hj2, _⟩)
      · exact h'
      · omega
  | succ k ih =>
    intro idx m s h
    rw [innerLoop]
    split
    · rename_i hlt
      rw [ih (idx + 1) _ s (by omega), mem_keys_dictInsert]
      constructor
      · rintro ((h' | rfl) | ⟨j, hj1, hj2, hj, rfl⟩)
        · exact Or.inl h'
        · exact Or.inr ⟨idx, Nat.le_refl _, by omega, hlt, rfl⟩
        · exact Or.inr ⟨j, by omega, by omega, hj, rfl⟩
      · rintro (h' | ⟨j, hj1, hj2, hj, rfl⟩)
        · exact Or.inl (Or.inl h')
        · by_cases hji : j = idx
          · subst hji
            exact Or.inl (Or.inr rfl)
          · exact Or.inr ⟨j, by omega, by omega, hj, rfl⟩
    · rename_i hge
      constructor
      · exact Or.inl
      · rintro (h' | ⟨j, hj1, hj2, hj, _⟩)
        · exact h'
        · omega

theorem innerLoop_keys_nodup (c : List Commit) (d : DateTime) (n : Nat) :
    ∀ (rem idx : Nat) (m : List (String × DateTime)),
      (m.map Prod.fst).Nodup → ((innerLoop c d n rem idx m).1.map Prod.fst).Nodup := by
  intro rem
  induction rem with
  | zero =>
    intro idx m h
    exact h
  | succ k ih =>
    intro idx m h
    rw [innerLoop]
    split
    · exact ih _ _ (keys_nodup_dictInsert h)
    · exact h

theorem sumAlloc_closed (b e : Nat) :
    ∀ (count start : Nat),
      sumAlloc b e start count = count * b + (min (start + count) e - min start e) := by
  intro count
  induction count with
  | zero =>
    intro start
    simp [sumAlloc]
  | succ k ih =>
    intro start
    rw [sumAlloc, ih (start + 1)]
    unfold alloc
    rw [Nat.succ_mul]
    split <;> omega

theorem outerLoop_keys (c : List Commit) (b e : Nat) :
    ∀ (dates : List DateTime) (dIdx idx : Nat) (m : List (String × DateTime))
      (s : String), idx ≤ c.length →
      (s ∈ (outerLoop c b e dates dIdx idx m).map Prod.fst ↔
        s ∈ m.map Prod.fst ∨ ∃ j, idx ≤ j ∧ j < idx + sumAlloc b e dIdx dates.length ∧
          ∃ (hj : j < c.length), (c.get ⟨j, hj⟩).sha = s) := by
  intro dates
  induction dates with
  | nil =>
    intro dIdx idx m s h
    simp only [outerLoop, sumAlloc]
    constructor
    · exact Or.inl
    · rintro (h' | ⟨j, hj1, hj2, _⟩)
      · exact h'
      · omega
  | cons date rest ih =>
    intro dIdx idx m s h
    rw [outerLoop]
    have hidx2 : (innerLoop c date (alloc b e dIdx) (alloc b e dIdx) idx m).2 =
        min (idx + alloc b e dIdx) c.length := innerLoop_idx c date _ _ idx m h
    simp only [alloc] at hidx2 ⊢
    rw [ih _ _ _ s (by rw [hidx2]; omega), hidx2,
      innerLoop_keys c date _ _ idx m s h]
    simp only [List.length_cons, sumAlloc, alloc]
    constructor
    · rintro ((h' | ⟨j, hj1, hj2, hj, rfl⟩) | ⟨j, hj1, hj2, hj, rfl⟩)
      · exact Or.inl h'
      · exact Or.inr ⟨j, by omega, by omega, hj, rfl⟩
      · exact Or.inr ⟨j, by omega, by omega, hj, rfl⟩
    · rintro (h' | ⟨j, hj1, hj2, hj, rfl⟩)
      · exact Or.inl (Or.inl h')
      · by_cases hjs : j < idx + (b + if dIdx < e then 1 else 0)
        · exact Or.inl (Or.inr ⟨j, hj1, hjs, hj, rfl⟩)
        · exact Or.inr ⟨j, by omega, by omega, hj, rfl⟩

theorem outerLoop_keys_nodup (c : List Commit) (b e : Nat) :
    ∀ (dates : List DateTime) (dIdx idx : Nat) (m : List (String × DateTime)),
      (m.map Prod.fst).Nodup → ((outerLoop c b e dates dIdx idx m).map Prod.fst).Nodup := by
  intro dates
  induction dates with
  | nil =>
    intro dIdx idx m h
    exact h
  | cons date rest ih =>
    intro dIdx idx m h
    rw [outerLoop]
    exact ih _ _ _ (innerLoop_keys_nodup c date _ _ idx m h)

/-- For `base_per_day = C / D` and `extra = C % D`, the total allotment over
all `D` days is exactly `C`. -/
theorem sumAlloc_total (C D : Nat) (hD : 0 < D) :
    sumAlloc (C / D) (C % D) 0 D = C := by
  rw [sumAlloc_closed]
  have h1 : C % D < D := Nat.mod_lt _ hD
  have h2 : D * (C / D) + C % D = C := Nat.div_add_mod C D
  omega

/-- C4: the produced mapping has pairwise-distinct keys, and its key set is
exactly the set of input commit identifiers. -/
theorem redistribute_domain :
    ∀ (commits : List Commit) (dates : List DateTime) (m : List (String × DateTime)),
      redistribute commits dates = .ok m →
      (m.map Prod.fst).Nodup ∧
        (∀ s, s ∈ m.map Prod.fst ↔ s ∈ commits.map Commit.sha) := by
  intro commits dates m h
  simp only [redistribute] at h
  split at h
  · exact absurd h (by simp)
  · rename_i hD
    replace h := Except.ok.inj h
    subst h
    refine ⟨outerLoop_keys_nodup _ _ _ dates 0 0 [] (by simp), fun s => ?_⟩
    rw [outerLoop_keys _ _ _ dates 0 0 [] s (by omega)]
    rw [sumAlloc_total commits.length dates.length (by omega)]
    simp only [List.map_nil, List.not_mem_nil, false_or, Nat.zero_add, Nat.zero_le,
      true_and]
    constructor
    · rintro ⟨j, hj2, hj, rfl⟩
      exact List.mem_map_of_mem Commit.sha (List.get_mem _ _ _)
    · intro hs
      obtain ⟨cm, hcm, rfl⟩ := List.mem_map.mp hs
      obtain ⟨⟨j, hj⟩, rfl⟩ := List.mem_iff_get.mp hcm
      exact ⟨j, hj, hj, rfl⟩

/-- Witness for C4 at two commits over one day, instantiated at the
identifier "a". -/
theorem redistribute_domain_witness :
    ([("a", DateTime.mk 0 9 0 0), ("b", DateTime.mk 0 16 7 0)].map Prod.fst).Nodup ∧
      ("a" ∈ [("a", DateTime.mk 0 9 0 0), ("b", DateTime.mk 0 16 7 0)].map Prod.fst ↔
        "a" ∈ [Commit.mk "a" ⟨3, 0, 0, 0⟩ "x", Commit.mk "b" ⟨4, 0, 0, 0⟩ "y"].map Commit.sha) :=
  ⟨(redistribute_domain [⟨"a", ⟨3, 0, 0, 0⟩, "x"⟩, ⟨"b", ⟨4, 0, 0, 0⟩, "y"⟩]
      [⟨0, 0, 0, 0⟩] [("a", ⟨0, 9, 0, 0⟩), ("b", ⟨0, 16, 7, 0⟩)] rfl).1,
   (redistribute_domain [⟨"a", ⟨3, 0, 0, 0⟩, "x"⟩, ⟨"b", ⟨4, 0, 0, 0⟩, "y"⟩]
      [⟨0, 0, 0, 0⟩] [("a", ⟨0, 9, 0, 0⟩), ("b", ⟨0, 16, 7, 0⟩)] rfl).2 "a"⟩

theorem sha_get_inj {c : List Commit} (hnd : (c.map Commit.sha).Nodup)
    {i j : Nat} (hi : i < c.length) (hj : j < c.length)
    (h : (c.get ⟨i, hi⟩).sha = (c.get ⟨j, hj⟩).sha) : i = j := by
  have hi' : i < (c.map Commit.sha).length := by simpa using hi
  have hj' : j < (c.map Commit.sha).length := by simpa using hj
  have he : (c.map Commit.sha).get ⟨i, hi'⟩ = (c.map Commit.sha).get ⟨j, hj'⟩ := by
    simpa using h
  exact congrArg Fin.val (hnd.get_inj_iff.mp he)

theorem innerSeg_keys (c : List Commit) (d : DateTime) (n : Nat) :
    ∀ (rem idx : Nat),
      (innerSeg c d n rem idx).map Prod.fst = ((c.map Commit.sha).drop idx).take rem := by
  intro rem
  induction rem with
  | zero =>
    intro idx
    simp [innerSeg]
  | succ k ih =>
    intro idx
    rw [innerSeg]
    split
    · rename_i hlt
      have hlt' : idx < (c.map Commit.sha).length := by simpa using hlt
      rw [List.map_cons, ih (idx + 1), List.drop_eq_getElem_cons hlt',
        List.take_succ_cons]
      simp
    · rename_i hge
      rw [List.drop_eq_nil_of_le (by simpa using Nat.le_of_not_lt hge)]
      simp

theorem innerSeg_length (c : List Commit) (d : DateTime) (n : Nat) (rem idx : Nat) :
    (innerSeg c d n rem idx).length = min rem (c.length - idx) := by
  have h := congrArg List.length (innerSeg_keys c d n rem idx)
  simpa using h

theorem innerSeg_days (c : List Commit) (d : DateTime) (n : Nat) :
    ∀ (rem idx : Nat), ∀ p ∈ innerSeg c d n rem idx, p.2.day = d.day := by
  intro rem
  induction rem with
  | zero =>
    intro idx p hp
    simp [innerSeg] at hp
  | succ k ih =>
    intro idx p hp
    rw [innerSeg] at hp
    split at hp
    · rcases List.mem_cons.mp hp with rfl | hp'
      · rfl
      · exact ih _ p hp'
    · simp at hp

theorem innerLoop_eq_append (c : List Commit) (d : DateTime) (n : Nat)
    (hnd : (c.map Commit.sha).Nodup) :
    ∀ (rem idx : Nat) (m : List (String × DateTime)), idx ≤ c.length →
      (∀ (j : Nat) (hj : j < c.length), idx ≤ j →
        (c.get ⟨j, hj⟩).sha ∉ m.map Prod.fst) →
      innerLoop c d n rem idx m =
        (m ++ innerSeg c d n rem idx, min (idx + rem) c.length) := by
  intro rem
  induction rem with
  | zero =>
    intro idx m hidx _
    rw [innerLoop, innerSeg, List.append_nil]
    congr 1
    omega
  | succ k ih =>
    intro idx m hidx hfresh
    rw [innerLoop, innerSeg]
    split
    · rename_i hlt
      rw [dictInsert_of_not_mem (hfresh idx hlt (Nat.le_refl idx)),
        ih (idx + 1) _ (by omega) ?_]
      · rw [List.append_assoc, List.singleton_append]
        congr 1
        omega
      · intro j hj hij
        rw [List.map_append, List.mem_append]
        rintro (hin | hin)
        · exact hfresh j hj (by omega) hin
        · simp only [List.map_cons, List.map_nil, List.mem_singleton] at hin
          have := sha_get_inj hnd hj hlt hin
          omega
    · rename_i hge
      rw [List.append_nil]
      congr 1
      omega

theorem outerLoop_eq_append (c : List Commit) (b e : Nat)
    (hnd : (c.map Commit.sha).Nodup) :
    ∀ (dates : List DateTime) (dIdx idx : Nat) (m : List (String × DateTime)),
      idx ≤ c.length →
      (∀ (j : Nat) (hj : j < c.length), idx ≤ j →
        (c.get ⟨j, hj⟩).sha ∉ m.map Prod.fst) →
      outerLoop c b e dates dIdx idx m = m ++ outerSeg c b e dates dIdx idx := by
  intro dates
  induction dates with
  | nil =>
    intro dIdx idx m _ _
    rw [outerLoop, outerSeg, List.append_nil]
  | cons date rest ih =>
    intro dIdx idx m hidx hfresh
    simp only [outerLoop, outerSeg]
    have hinner := innerLoop_eq_append c date (alloc b e dIdx) hnd
      (alloc b e dIdx) idx m hidx hfresh
    rw [hinner]
    rw [ih (dIdx + 1) (min (idx + alloc b e dIdx) c.length) _ (by omega) ?_]
    · rw [List.append_assoc]
    · intro j hj hij hmem
      have hkeys := innerLoop_keys c date (alloc b e dIdx) (alloc b e dIdx) idx m
        ((c.get ⟨j, hj⟩).sha) hidx
      rw [hinner] at hkeys
      rcases hkeys.mp hmem with h' | ⟨j', hj1, hj2, hj', he⟩
      · exact hfresh j hj (by omega) h'
      · have := sha_get_inj hnd hj' hj he
        omega

/-- Under pairwise-distinct commit identifiers, the mapping built by
`redistribute` is exactly the append-only segment list `outerSeg`. -/
theorem redistribute_eq_outerSeg (commits : List Commit) (dates : List DateTime)
    (hnd : (commits.map Commit.sha).Nodup) (hne : dates ≠ []) :
    redistribute commits dates =
      .ok (outerSeg commits (commits.length / dates.length)
        (commits.length % dates.length) dates 0 0) := by
  have h0 : ¬ dates.length = 0 := by simpa [List.length_eq_zero] using hne
  simp only [redistribute, h0, if_false]
  rw [outerLoop_eq_append commits _ _ hnd dates 0 0 [] (by omega) (by simp)]
  rw [List.nil_append]

theorem countDay_append (l₁ l₂ : List (String × DateTime)) (d : Nat) :
    countDay (l₁ ++ l₂) d = countDay l₁ d + countDay l₂ d := by
  simp [countDay]

theorem countDay_eq_length {l : List (String × DateTime)} {d : Nat}
    (h : ∀ p ∈ l, p.2.day = d) : countDay l d = l.length :=
  List.countP_eq_length.mpr (fun p hp => by simpa using h p hp)

theorem countDay_eq_zero {l : List (String × DateTime)} {d : Nat}
    (h : ∀ p ∈ l, p.2.day ≠ d) : countDay l d = 0 :=
  List.countP_eq_zero.mpr (fun p hp => by simpa using h p hp)

theorem outerSeg_days_subset (c : List Commit) (b e : Nat) :
    ∀ (dates : List DateTime) (dIdx idx : Nat),
      ∀ p ∈ outerSeg c b e dates dIdx idx, p.2.day ∈ dates.map DateTime.day := by
  intro dates
  induction dates with
  | nil =>
    intro dIdx idx p hp
    simp [outerSeg] at hp
  | cons date rest ih =>
    intro dIdx idx p hp
    simp only [outerSeg] at hp
    rw [List.map_cons]
    rcases List.mem_append.mp hp with h | h
    · exact List.mem_cons.mpr (Or.inl (innerSeg_days c date _ _ _ p h))
    · exact List.mem_cons.mpr (Or.inr (ih _ _ p h))

theorem outerSeg_counts (c : List Commit) (b e : Nat) :
    ∀ (dates : List DateTime) (dIdx idx : Nat),
      (dates.map DateTime.day).Nodup →
      idx + sumAlloc b e dIdx dates.length ≤ c.length →
      (∀ (k : Nat) (hk : k < dates.length),
        countDay (outerSeg c b e dates dIdx idx) (dates.get ⟨k, hk⟩).day =
          alloc b e (dIdx + k)) ∧
      ((dates.map DateTime.day).map
        (countDay (outerSeg c b e dates dIdx idx))).sum =
        sumAlloc b e dIdx dates.length := by
  intro dates
  induction dates with
  | nil =>
    intro dIdx idx _ _
    refine ⟨fun k hk => absurd hk (by simp), ?_⟩
    simp [outerSeg, sumAlloc]
  | cons date rest ih =>
    intro dIdx idx hnd hle
    have hsum : sumAlloc b e dIdx (date :: rest).length =
        alloc b e dIdx + sumAlloc b e (dIdx + 1) rest.length := by
      simp [sumAlloc]
    rw [hsum] at hle
    have hndr : (rest.map DateTime.day).Nodup := by
      rw [List.map_cons, List.nodup_cons] at hnd
      exact hnd.2
    have hday : date.day ∉ rest.map DateTime.day := by
      rw [List.map_cons, List.nodup_cons] at hnd
      exact hnd.1
    have hidxn : min (idx + alloc b e dIdx) c.length = idx + alloc b e dIdx := by
      omega
    have hih := ih (dIdx + 1) (min (idx + alloc b e dIdx) c.length) hndr
      (by rw [hidxn]; omega)
    have hsegdays := innerSeg_days c date (alloc b e dIdx) (alloc b e dIdx) idx
    have hsegcount :
        countDay (innerSeg c date (alloc b e dIdx) (alloc b e dIdx) idx) date.day =
          alloc b e dIdx := by
      rw [countDay_eq_length (fun p hp => hsegdays p hp), innerSeg_length]
      omega
    have hrest0 : countDay (outerSeg c b e rest (dIdx + 1)
        (min (idx + alloc b e dIdx) c.length)) date.day = 0 := by
      apply countDay_eq_zero
      intro p hp he
      exact hday (he ▸ outerSeg_days_subset c b e rest _ _ p hp)
    constructor
    · intro k hk
      match k with
      | 0 =>
        have hget : ((date :: rest).get ⟨0, hk⟩).day = date.day := rfl
        simp only [outerSeg]
        rw [countDay_append, hget, hsegcount, hrest0, Nat.add_zero, Nat.add_zero]
      | k + 1 =>
        have hk' : k < rest.length := by
          simpa using Nat.lt_of_succ_lt_succ (by simpa using hk)
        have hget : ((date :: rest).get ⟨k + 1, hk⟩).day = (rest.get ⟨k, hk'⟩).day := rfl
        simp only [outerSeg]
        rw [countDay_append, hget]
        have hrd : (rest.get ⟨k, hk'⟩).day ∈ rest.map DateTime.day :=
          List.mem_map_of_mem DateTime.day (List.get_mem _ _ _)
        have hne : date.day ≠ (rest.get ⟨k, hk'⟩).day := fun hcontr => hday (hcontr ▸ hrd)
        have hseg0 : countDay (innerSeg c date (alloc b e dIdx) (alloc b e dIdx) idx)
            (rest.get ⟨k, hk'⟩).day = 0 :=
          countDay_eq_zero (fun p hp he => hne (by rw [← hsegdays p hp]; exact he))
        rw [hseg0, Nat.zero_add, hih.1 k hk']
        congr 1
        omega
    · simp only [outerSeg, List.map_cons, List.sum_cons]
      rw [countDay_append, hsegcount, hrest0, Nat.add_zero]
      have hmapeq : (rest.map DateTime.day).map
          (countDay (innerSeg c date (alloc b e dIdx) (alloc b e dIdx) idx ++
            outerSeg c b e rest (dIdx + 1) (min (idx + alloc b e dIdx) c.length))) =
          (rest.map DateTime.day).map
            (countDay (outerSeg c b e rest (dIdx + 1)
              (min (idx + alloc b e dIdx) c.length))) := by
        refine List.map_congr_left fun d hd => ?_
        rw [countDay_append]
        have hdne : date.day ≠ d := fun hcontr => hday (hcontr ▸ hd)
        have hseg0 : countDay (innerSeg c date (alloc b e dIdx) (alloc b e dIdx) idx) d = 0 :=
          countDay_eq_zero (fun p hp he => hdne (by rw [← hsegdays p hp]; exact he))
        rw [hseg0, Nat.zero_add]
      rw [hmapeq, hih.2, hsum]

/-- C1 (amended with pairwise-distinct commit identifiers and pairwise-distinct
calendar days): the day at position `k` of the range receives exactly
`C / D` commits plus one more when `k < C % D` — so each day receives
`⌊C/D⌋` or `⌊C/D⌋ + 1`, the extra commits go exactly to the earliest
`C mod D` days — and the per-day counts sum to `C`. -/
theorem redistribute_day_counts (commits : List Commit) (dates : List DateTime)
    (hsha : (commits.map Commit.sha).Nodup)
    (hday : (dates.map DateTime.day).Nodup)
    (hne : dates ≠ [])
    (m : List (String × DateTime))
    (hok : redistribute commits dates = .ok m) :
    (∀ (k : Nat) (hk : k < dates.length),
      countDay m (dates.get ⟨k, hk⟩).day =
        commits.length / dates.length +
          (if k < commits.length % dates.length then 1 else 0)) ∧
    ((dates.map DateTime.day).map (countDay m)).sum = commits.length := by
  have hD : 0 < dates.length := List.length_pos.mpr hne
  rw [redistribute_eq_outerSeg commits dates hsha hne] at hok
  replace hok := Except.ok.inj hok
  subst hok
  have h := outerSeg_counts commits (commits.length / dates.length)
    (commits.length % dates.length) dates 0 0 hday
    (by rw [sumAlloc_total _ _ hD]; omega)
  constructor
  · intro k hk
    rw [h.1 k hk]
    simp [alloc]
  · rw [h.2, sumAlloc_total _ _ hD]

/-- C1 counterexample: with a duplicated commit identifier the dict entry is
overwritten, so over two commits and two days the first day's count is `0`
(neither `⌊2/2⌋ = 1` nor `2`) and the per-day counts sum to `1`, not to the
commit count `2`. -/
theorem redistribute_day_counts_cex :
    redistribute [⟨"a", ⟨0, 0, 0, 0⟩, ""⟩, ⟨"a", ⟨0, 0, 0, 0⟩, ""⟩]
        [⟨0, 0, 0, 0⟩, ⟨1, 0, 0, 0⟩] = .ok [("a", ⟨1, 9, 0, 0⟩)] ∧
      countDay [("a", (⟨1, 9, 0, 0⟩ : DateTime))] 0 = 0 ∧
      (([(⟨0, 0, 0, 0⟩ : DateTime), ⟨1, 0, 0, 0⟩].map DateTime.day).map
        (countDay [("a", (⟨1, 9, 0, 0⟩ : DateTime))])).sum = 1 ∧
      ([⟨"a", (⟨0, 0, 0, 0⟩ : DateTime), ""⟩,
        ⟨"a", ⟨0, 0, 0, 0⟩, ""⟩] : List Commit).length = 2 :=
  ⟨rfl, rfl, rfl, rfl⟩

/-- Witness for the amended C1 at one commit over one day, instantiated at
day position 0. -/
theorem redistribute_day_counts_witness :
    countDay [("a", ⟨0, 9, 0, 0⟩)]
        (([⟨0, 0, 0, 0⟩] : List DateTime).get ⟨0, by decide⟩).day =
      ([⟨"a", ⟨0, 0, 0, 0⟩, ""⟩] : List Commit).length /
          ([⟨0, 0, 0, 0⟩] : List DateTime).length +
        (if 0 < ([⟨"a", ⟨0, 0, 0, 0⟩, ""⟩] : List Commit).length %
            ([⟨0, 0, 0, 0⟩] : List DateTime).length then 1 else 0) ∧
    ((([⟨0, 0, 0, 0⟩] : List DateTime).map DateTime.day).map
      (countDay [("a", ⟨0, 9, 0, 0⟩)])).sum =
      ([⟨"a", ⟨0, 0, 0, 0⟩, ""⟩] : List Commit).length :=
  ⟨(redistribute_day_counts [⟨"a", ⟨0, 0, 0, 0⟩, ""⟩] [⟨0, 0, 0, 0⟩] (by decide)
      (by decide) (by decide) [("a", ⟨0, 9, 0, 0⟩)] rfl).1 0 (by decide),
   (redistribute_day_counts [⟨"a", ⟨0, 0, 0, 0⟩, ""⟩] [⟨0, 0, 0, 0⟩] (by decide)
      (by decide) (by decide) [("a", ⟨0, 9, 0, 0⟩)] rfl).2⟩

theorem outerSeg_day_cover (c : List Commit) (b e : Nat) (hb : 1 ≤ b) :
    ∀ (dates : List DateTime) (dIdx idx : Nat),
      idx + sumAlloc b e dIdx dates.length ≤ c.length →
      ∀ date ∈ dates, ∃ p ∈ outerSeg c b e dates dIdx idx, p.2.day = date.day := by
  intro dates
  induction dates with
  | nil =>
    intro dIdx idx _ date hd
    simp at hd
  | cons date0 rest ih =>
    intro dIdx idx hle date hd
    have hsum : sumAlloc b e dIdx (date0 :: rest).length =
        alloc b e dIdx + sumAlloc b e (dIdx + 1) rest.length := by
      simp [sumAlloc]
    rw [hsum] at hle
    have halloc : 1 ≤ alloc b e dIdx := by
      unfold alloc
      omega
    rcases List.mem_cons.mp hd with rfl | hd'
    · have hlen : 0 < (innerSeg c date (alloc b e dIdx) (alloc b e dIdx) idx).length := by
        rw [innerSeg_length]
        omega
      obtain ⟨p, hp⟩ := List.exists_mem_of_length_pos hlen
      refine ⟨p, ?_, innerSeg_days c date _ _ _ p hp⟩
      simp only [outerSeg]
      exact List.mem_append.mpr (Or.inl hp)
    · obtain ⟨p, hp, hpd⟩ := ih (dIdx + 1) (min (idx + alloc b e dIdx) c.length)
        (by omega) date hd'
      refine ⟨p, ?_, hpd⟩
      simp only [outerSeg]
      exact List.mem_append.mpr (Or.inr hp)

/-- C3 (amended with pairwise-distinct commit identifiers): when the commit
count is at least the day count, the set of calendar days among the mapping's
values is exactly the set of days of the requested range. -/
theorem redistribute_day_coverage (commits : List Commit) (dates : List DateTime)
    (hsha : (commits.map Commit.sha).Nodup)
    (hCD : dates.length ≤ commits.length)
    (hne : dates ≠ [])
    (m : List (String × DateTime))
    (hok : redistribute commits dates = .ok m) :
    ∀ d : Nat, (∃ p ∈ m, p.2.day = d) ↔ d ∈ dates.map DateTime.day := by
  have hD : 0 < dates.length := List.length_pos.mpr hne
  rw [redistribute_eq_outerSeg commits dates hsha hne] at hok
  replace hok := Except.ok.inj hok
  subst hok
  intro d
  constructor
  · rintro ⟨p, hp, rfl⟩
    exact outerSeg_days_subset _ _ _ dates 0 0 p hp
  · intro hd
    obtain ⟨date, hdate, rfl⟩ := List.mem_map.mp hd
    have hb : 1 ≤ commits.length / dates.length := by
      rw [Nat.one_le_div_iff hD]
      exact hCD
    exact outerSeg_day_cover commits _ _ hb dates 0 0
      (by rw [sumAlloc_total _ _ hD]; omega) date hdate

/-- C3 counterexample: with a duplicated commit identifier and two commits
over two days (so C ≥ D), day 0 of the range never appears among the
mapping's values. -/
theorem redistribute_day_coverage_cex :
    redistribute [⟨"a", ⟨0, 0, 0, 0⟩, ""⟩, ⟨"a", ⟨0, 0, 0, 0⟩, ""⟩]
        [⟨0, 0, 0, 0⟩, ⟨1, 0, 0, 0⟩] = .ok [("a", ⟨1, 9, 0, 0⟩)] ∧
      (0 : Nat) ∈ ([⟨0, 0, 0, 0⟩, ⟨1, 0, 0, 0⟩] : List DateTime).map DateTime.day ∧
      ([("a", (⟨1, 9, 0, 0⟩ : DateTime))].all fun p => p.2.day != 0) = true :=
  ⟨rfl, by decide, rfl⟩

/-- Witness for the amended C3 at one commit over one day, instantiated at
calendar day 0. -/
theorem redistribute_day_coverage_witness :
    (∃ p ∈ [("a", (⟨0, 9, 0, 0⟩ : DateTime))], p.2.day = 0) ↔
      (0 : Nat) ∈ ([⟨0, 0, 0, 0⟩] : List DateTime).map DateTime.day :=
  redistribute_day_coverage [⟨"a", ⟨0, 0, 0, 0⟩, ""⟩] [⟨0, 0, 0, 0⟩] (by decide)
    (by decide) (by decide) [("a", ⟨0, 9, 0, 0⟩)] rfl 0

theorem outerSeg_keys (c : List Commit) (b e : Nat) :
    ∀ (dates : List DateTime) (dIdx idx : Nat), idx ≤ c.length →
      (outerSeg c b e dates dIdx idx).map Prod.fst =
        ((c.map Commit.sha).drop idx).take (sumAlloc b e dIdx dates.length) := by
  intro dates
  induction dates with
  | nil =>
    intro dIdx idx _
    simp [outerSeg, sumAlloc]
  | cons date rest ih =>
    intro dIdx idx h
    simp only [outerSeg, List.map_append]
    rw [innerSeg_keys, ih (dIdx + 1) _ (by omega)]
    have hdrop : (c.map Commit.sha).drop (min (idx + alloc b e dIdx) c.length) =
        (c.map Commit.sha).drop (idx + alloc b e dIdx) := by
      rcases Nat.le_total (idx + alloc b e dIdx) c.length with hc | hc
      · rw [Nat.min_eq_left hc]
      · rw [Nat.min_eq_right hc, List.drop_eq_nil_of_le (by simp),
          List.drop_eq_nil_of_le (by simpa using hc)]
    have hsplit : (c.map Commit.sha).drop (idx + alloc b e dIdx) =
        ((c.map Commit.sha).drop idx).drop (alloc b e dIdx) :=
      (List.drop_drop _ _ _).symm
    rw [hdrop, hsplit, ← List.take_add]
    simp [sumAlloc]

theorem outerSeg_days_pairwise (c : List Commit) (b e : Nat) :
    ∀ (dates : List DateTime),
      dates.Pairwise (fun a b => a.day ≤ b.day) →
      ∀ (dIdx idx : Nat),
        (outerSeg c b e dates dIdx idx).Pairwise (fun p q => p.2.day ≤ q.2.day) := by
  intro dates
  induction dates with
  | nil =>
    intro _ dIdx idx
    simp [outerSeg]
  | cons date rest ih =>
    intro hsort dIdx idx
    rw [List.pairwise_cons] at hsort
    simp only [outerSeg]
    rw [List.pairwise_append]
    refine ⟨?_, ih hsort.2 _ _, ?_⟩
    · refine List.pairwise_of_forall_mem_list fun p hp q hq => ?_
      rw [innerSeg_days c date _ _ _ p hp, innerSeg_days c date _ _ _ q hq]
    · intro p hp q hq
      rw [innerSeg_days c date _ _ _ p hp]
      have hqd := outerSeg_days_subset c b e rest _ _ q hq
      obtain ⟨dq, hdq, hdq2⟩ := List.mem_map.mp hqd
      rw [← hdq2]
      exact hsort.1 dq hdq

theorem dictLookup_get (m : List (String × DateTime))
    (hnd : (m.map Prod.fst).Nodup) :
    ∀ (j : Nat) (hj : j < m.length),
      dictLookup m (m.get ⟨j, hj⟩).1 = some (m.get ⟨j, hj⟩).2 := by
  induction m with
  | nil =>
    intro j hj
    simp at hj
  | cons p rest ih =>
    rw [List.map_cons, List.nodup_cons] at hnd
    intro j hj
    match j with
    | 0 =>
      show dictLookup (p :: rest) p.1 = some p.2
      rw [dictLookup, List.find?_cons_of_pos _ (by simp)]
      rfl
    | j + 1 =>
      have hj' : j < rest.length := by simpa using hj
      have hget : (p :: rest).get ⟨j + 1, hj⟩ = rest.get ⟨j, hj'⟩ := rfl
      have hkey : (rest.get ⟨j, hj'⟩).1 ∈ rest.map Prod.fst :=
        List.mem_map_of_mem Prod.fst (List.get_mem _ _ _)
      have hne : ¬ p.1 = (rest.get ⟨j, hj'⟩).1 := fun hcontr => hnd.1 (hcontr ▸ hkey)
      rw [hget, dictLookup, List.find?_cons_of_neg _ (by simpa using hne)]
      exact ih hnd.2 j hj'

/-- C9 (amended with pairwise-distinct commit identifiers): with the dates in
strictly increasing day order, the day assignment is monotone at day
granularity: for commit positions `i < j`, the calendar day the mapping
assigns to commit `i` is at most the one assigned to commit `j`. -/
theorem redistribute_monotone_days (commits : List Commit) (dates : List DateTime)
    (hsha : (commits.map Commit.sha).Nodup)
    (hsort : dates.Pairwise (fun a b => a.day < b.day))
    (hne : dates ≠ [])
    (m : List (String × DateTime))
    (hok : redistribute commits dates = .ok m)
    (i j : Nat) (hij : i < j) (hj : j < commits.length) :
    ∃ di dj,
      dictLookup m (commits.get ⟨i, Nat.lt_trans hij hj⟩).sha = some di ∧
      dictLookup m (commits.get ⟨j, hj⟩).sha = some dj ∧
      di.day ≤ dj.day := by
  have hD : 0 < dates.length := List.length_pos.mpr hne
  rw [redistribute_eq_outerSeg commits dates hsha hne] at hok
  replace hok := Except.ok.inj hok
  have hkeys : m.map Prod.fst = commits.map Commit.sha := by
    rw [← hok, outerSeg_keys commits _ _ dates 0 0 (by omega),
      sumAlloc_total _ _ hD, List.drop_zero]
    rw [show commits.length = (commits.map Commit.sha).length by simp,
      List.take_length]
  have hlen : m.length = commits.length := by
    have h := congrArg List.length hkeys
    simpa using h
  have hndk : (m.map Prod.fst).Nodup := by
    rw [hkeys]
    exact hsha
  have hi : i < commits.length := Nat.lt_trans hij hj
  have hi' : i < m.length := by omega
  have hj' : j < m.length := by omega
  have hkey : ∀ (t : Nat) (htm : t < m.length) (htc : t < commits.length),
      (m.get ⟨t, htm⟩).1 = (commits.get ⟨t, htc⟩).sha := by
    intro t htm htc
    have h1 : (m.map Prod.fst)[t]? = (commits.map Commit.sha)[t]? := by
      rw [hkeys]
    rw [List.getElem?_eq_getElem (by simpa using htm),
      List.getElem?_eq_getElem (by simpa using htc)] at h1
    replace h1 := Option.some.inj h1
    simpa using h1
  have hpw : m.Pairwise (fun p q => p.2.day ≤ q.2.day) := by
    rw [← hok]
    exact outerSeg_days_pairwise commits _ _ dates
      (hsort.imp fun h => Nat.le_of_lt h) 0 0
  have hmono := List.pairwise_iff_get.mp hpw ⟨i, hi'⟩ ⟨j, hj'⟩ (by simpa using hij)
  refine ⟨(m.get ⟨i, hi'⟩).2, (m.get ⟨j, hj'⟩).2, ?_, ?_, hmono⟩
  · rw [← hkey i hi' hi]
    exact dictLookup_get m hndk i hi'
  · rw [← hkey j hj' hj]
    exact dictLookup_get m hndk j hj'

/-- C9 counterexample: with a duplicated identifier the later occurrence
overwrites the dict entry, so over commits `a, b, a` and three strictly
increasing days, commit 0 (`"a"`) is mapped to day 2 while the later
commit 1 (`"b"`) is mapped to day 1. -/
theorem redistribute_monotone_days_cex :
    redistribute
        [⟨"a", ⟨0, 0, 0, 0⟩, ""⟩, ⟨"b", ⟨0, 0, 0, 0⟩, ""⟩, ⟨"a", ⟨0, 0, 0, 0⟩, ""⟩]
        [⟨0, 0, 0, 0⟩, ⟨1, 0, 0, 0⟩, ⟨2, 0, 0, 0⟩] =
      .ok [("a", ⟨2, 9, 0, 0⟩), ("b", ⟨1, 9, 0, 0⟩)] ∧
    dictLookup [("a", ⟨2, 9, 0, 0⟩), ("b", ⟨1, 9, 0, 0⟩)] "a" = some ⟨2, 9, 0, 0⟩ ∧
    dictLookup [("a", ⟨2, 9, 0, 0⟩), ("b", ⟨1, 9, 0, 0⟩)] "b" = some ⟨1, 9, 0, 0⟩ ∧
    ¬ ((DateTime.mk 2 9 0 0).day ≤ (DateTime.mk 1 9 0 0).day) :=
  ⟨rfl, rfl, rfl, by decide⟩

/-- Witness for the amended C9 at two distinct commits over two increasing
days, at positions 0 < 1. -/
theorem redistribute_monotone_days_witness :
    ∃ di dj,
      dictLookup [("a", ⟨0, 9, 0, 0⟩), ("b", ⟨1, 9, 0, 0⟩)]
          (([⟨"a", ⟨0, 0, 0, 0⟩, ""⟩, ⟨"b", ⟨0, 0, 0, 0⟩, ""⟩] : List Commit).get
            ⟨0, by decide⟩).sha = some di ∧
      dictLookup [("a", ⟨0, 9, 0, 0⟩), ("b", ⟨1, 9, 0, 0⟩)]
          (([⟨"a", ⟨0, 0, 0, 0⟩, ""⟩, ⟨"b", ⟨0, 0, 0, 0⟩, ""⟩] : List Commit).get
            ⟨1, by decide⟩).sha = some dj ∧
      di.day ≤ dj.day :=
  redistribute_monotone_days
    [⟨"a", ⟨0, 0, 0, 0⟩, ""⟩, ⟨"b", ⟨0, 0, 0, 0⟩, ""⟩]
    [⟨0, 0, 0, 0⟩, ⟨1, 0, 0, 0⟩] (by decide) (by decide) (by decide)
    [("a", ⟨0, 9, 0, 0⟩), ("b", ⟨1, 9, 0, 0⟩)] rfl 0 1 (by decide) (by decide)
